import Mathlib

/-!
Shallow embedding of the `typed-fsm` crate's core (src/fsm.rs): the
state-machine lifecycle runner generated by the `state_machine!` macro, and
the concurrency-safe dispatch protocol of the `concurrent` feature
(reentrancy guard, bounded pending-event queue, drain loop, drop counter).

States, contexts and events are abstract type parameters; a machine is a
record of the user-supplied hooks (`entry`/`process`/`exit` blocks of the
macro; an omitted hook is the identity on the context, exactly as the macro
expands to no code for it).  Hook executions are instrumented with a trace
so that claims about which hooks run, on which state, and in which order
can be stated.
-/

namespace TypedFsm

/-- `Transition<S>` from src/fsm.rs: the result of a `process` step.
`none` is `Transition::None` (stay), `to s` is `Transition::To(s)`. -/
inductive Transition (S : Type) where
  | none : Transition S
  | to (s : S) : Transition S
deriving DecidableEq, Repr

/-- A state machine definition: the user-supplied hook bodies the
`state_machine!` macro splices into `on_entry` / `on_exit` / `on_process`.
A state with no `entry:` (resp. `exit:`) block is modelled by the hook
being the identity on the context. `on_process` may mutate the context and
must return a `Transition`. -/
structure FSMDef (S Ctx E : Type) where
  on_process : S → Ctx → E → Ctx × Transition S
  on_entry : S → Ctx → Ctx
  on_exit : S → Ctx → Ctx

/-- One user-hook invocation, recorded in an instrumentation trace:
which hook ran, and for `exit`/`entry` on which state value. -/
inductive Hook (S E : Type) where
  | proc (e : E) : Hook S E
  | exit (s : S) : Hook S E
  | entry (s : S) : Hook S E
deriving DecidableEq, Repr

/-- Is this trace element an `entry` invocation? -/
def Hook.isEntry {S E : Type} : Hook S E → Bool
  | .entry _ => true
  | _ => false

/-- The events processed (passed to `on_process`) in a hook trace. -/
def procEvents {S E : Type} : List (Hook S E) → List E
  | [] => []
  | .proc e :: t => e :: procEvents t
  | _ :: t => procEvents t

namespace FSMDef

variable {S Ctx E : Type}

/-- `do_dispatch_internal` (src/fsm.rs lines 750-765, identical to the
non-concurrent `dispatch` at lines 534-559): run `on_process`; on
`Transition::To(new_state)` run `on_exit` of the current state, then
`on_entry` of the new state, then commit the new state; on
`Transition::None` do nothing further.  Returns the stored state, the
context, and the trace of hook invocations. -/
def do_dispatch_internal (m : FSMDef S Ctx E) (s : S) (c : Ctx) (e : E) :
    S × Ctx × List (Hook S E) :=
  match m.on_process s c e with
  | (c1, Transition.to ns) =>
      (ns, m.on_entry ns (m.on_exit s c1), [Hook.proc e, Hook.exit s, Hook.entry ns])
  | (c1, Transition.none) => (s, c1, [Hook.proc e])

/-- `init` (src/fsm.rs lines 457-461 and 690-694): runs only `on_entry`
of the current (initial) state. -/
def init (m : FSMDef S Ctx E) (s : S) (c : Ctx) : Ctx × List (Hook S E) :=
  (m.on_entry s c, [Hook.entry s])

/-- A caller's event loop that never called `init`: each event goes
through `dispatch` (non-concurrent expansion, = `do_dispatch_internal`). -/
def runNoInit (m : FSMDef S Ctx E) : S → Ctx → List E → S × Ctx × List (Hook S E)
  | s, c, [] => (s, c, [])
  | s, c, e :: es =>
      let r := m.do_dispatch_internal s c e
      let rest := m.runNoInit r.1 r.2.1 es
      (rest.1, rest.2.1, r.2.2 ++ rest.2.2)

/-- The recommended usage: `init` once, then the same event loop. -/
def runWithInit (m : FSMDef S Ctx E) (s : S) (c : Ctx) (es : List E) :
    S × Ctx × List (Hook S E) :=
  let i := m.init s c
  let r := m.runNoInit s i.1 es
  (r.1, r.2.1, i.2 ++ r.2.2)

end FSMDef

/-! ## Concurrent dispatch protocol (feature = "concurrent"), sequential view

The public `dispatch` of the concurrent expansion (src/fsm.rs lines
879-948), modelled as a function of the protocol state under no concurrent
interference: try the compare-and-swap on `DISPATCH_ACTIVE`; on success run
the immediate event, drain the pending queue to empty, then store the flag
back to false; on failure `push_back` the event onto the bounded queue, or
on overflow bump `DROPPED_EVENTS` and (in debug builds) panic. -/

/-- `heapless::Deque::<E, cap>::push_back`: appends if the deque is below
capacity, otherwise reports overflow (`Option.none`). -/
def push_back {E : Type} (cap : Nat) (q : List E) (e : E) : Option (List E) :=
  if q.length < cap then some (q ++ [e]) else Option.none

/-- Protocol state of one generated machine: the `DISPATCH_ACTIVE` atomic
flag, the `PENDING_QUEUE` deque, the `DROPPED_EVENTS` counter, and the
machine's stored state and context. -/
structure ProtoState (S Ctx E : Type) where
  dispatch_active : Bool
  pending_queue : List E
  dropped_events : Nat
  fsm : S
  ctx : Ctx

/-- The drain loop of `dispatch` (lines 897-909): `pop_front` the pending
queue and `do_dispatch_internal` each event until the queue reports empty.
With no concurrent producer this is structural recursion on the queue
contents, oldest first. -/
def FSMDef.drainLoop {S Ctx E : Type} (m : FSMDef S Ctx E) :
    S → Ctx → List E → S × Ctx × List (Hook S E)
  | s, c, [] => (s, c, [])
  | s, c, e :: q =>
      let r := m.do_dispatch_internal s c e
      let rest := m.drainLoop r.1 r.2.1 q
      (rest.1, rest.2.1, r.2.2 ++ rest.2.2)

/-- The guard-busy branch of `dispatch` (lines 913-946): `push_back` the
cloned event; on overflow `fetch_add(1)` the drop counter and, when
`debug_assertions` is set, panic.  Returns the new queue, the new counter,
and whether a panic was raised (the counter increment precedes the panic,
so the returned counter is live even when the Bool is `true`). -/
def dispatchBusy {E : Type} (cap : Nat) (debug : Bool) (q : List E) (dropped : Nat)
    (e : E) : List E × Nat × Bool :=
  match push_back cap q e with
  | some q1 => (q1, dropped, false)
  | Option.none => (q, dropped + 1, debug)

/-- The full `dispatch` of the concurrent expansion (lines 879-948) as one
sequential step on the protocol state: the compare-exchange on
`dispatch_active` either succeeds (run immediate event, drain queue,
release flag) or fails (enqueue / drop).  Returns the new protocol state,
the trace of hook invocations, and whether a debug overflow panic was
raised. -/
def FSMDef.dispatchSeq {S Ctx E : Type} (m : FSMDef S Ctx E) (cap : Nat) (debug : Bool)
    (st : ProtoState S Ctx E) (e : E) :
    ProtoState S Ctx E × List (Hook S E) × Bool :=
  if st.dispatch_active = false then
    let r := m.do_dispatch_internal st.fsm st.ctx e
    let d := m.drainLoop r.1 r.2.1 st.pending_queue
    (⟨false, [], st.dropped_events, d.1, d.2.1⟩, r.2.2 ++ d.2.2, false)
  else
    let b := dispatchBusy cap debug st.pending_queue st.dropped_events e
    ({ st with pending_queue := b.1, dropped_events := b.2.1 }, [], b.2.2)

/-- Iterate `dispatchSeq` over a list of events, accumulating traces and
or-ing the panic flags. -/
def FSMDef.dispatchSeqAll {S Ctx E : Type} (m : FSMDef S Ctx E) (cap : Nat) (debug : Bool) :
    ProtoState S Ctx E → List E → ProtoState S Ctx E × List (Hook S E) × Bool
  | st, [] => (st, [], false)
  | st, e :: es =>
      let r := m.dispatchSeq cap debug st e
      let rest := m.dispatchSeqAll cap debug r.1 es
      (rest.1, r.2.1 ++ rest.2.1, r.2.2 || rest.2.2)

/-! ## Lifecycle runner with faulting hooks

For the hook-panic claims: the same `do_dispatch_internal` but each hook
may panic (`Except P`).  The result records the state actually stored in
the container when the call returns or unwinds, the context, the hooks that
were invoked, and the propagated panic (if any). -/

/-- A machine whose user hooks may panic with payload `P`. -/
structure FSMPanic (S Ctx E P : Type) where
  on_process : S → Ctx → E → Except P (Ctx × Transition S)
  on_entry : S → Ctx → Except P Ctx
  on_exit : S → Ctx → Except P Ctx

/-- `do_dispatch_internal` with faulting hooks: a panic anywhere aborts the
remaining sequence and propagates; the state commit `*self = new_state` is
the last action, so any panic leaves the old state stored. -/
def FSMPanic.do_dispatch {S Ctx E P : Type} (m : FSMPanic S Ctx E P)
    (s : S) (c : Ctx) (e : E) : S × Ctx × List (Hook S E) × Option P :=
  match m.on_process s c e with
  | Except.error p => (s, c, [Hook.proc e], some p)
  | Except.ok (c1, Transition.none) => (s, c1, [Hook.proc e], Option.none)
  | Except.ok (c1, Transition.to ns) =>
      match m.on_exit s c1 with
      | Except.error p => (s, c1, [Hook.proc e, Hook.exit s], some p)
      | Except.ok c2 =>
          match m.on_entry ns c2 with
          | Except.error p => (s, c2, [Hook.proc e, Hook.exit s, Hook.entry ns], some p)
          | Except.ok c3 => (ns, c3, [Hook.proc e, Hook.exit s, Hook.entry ns], Option.none)

/-! ## Concurrent dispatch protocol, interleaved semantics

The concurrent `dispatch` (src/fsm.rs lines 879-948) decomposed into its
atomic actions, interleaved over `n` callers (threads / ISRs).  Each
caller's control point within one `dispatch` call:

* `idle`          — not inside a dispatch call;
* `gotLock e`     — won the compare-exchange (line 887-889), about to run
                    the immediate event `e`;
* `draining`      — running the drain loop (lines 897-909);
* `releasing`     — `pop_front` returned `None` and the loop broke; the
                    `store(false)` at line 912 has not yet executed;
* `wantEnqueue e` — lost the compare-exchange, about to `push_back` `e`
                    (lines 916-921).

The shared state adds ghost accounting counters (`submitted`, `immRun`,
`deqRun`) that no step reads, only increments. -/

/-- Control point of one caller inside the concurrent `dispatch`. -/
inductive PC (E : Type) where
  | idle : PC E
  | gotLock (e : E) : PC E
  | draining : PC E
  | releasing : PC E
  | wantEnqueue (e : E) : PC E
deriving DecidableEq, Repr

/-- Does this control point run user hooks when it steps (the immediate
`do_dispatch_internal` or a drain-loop iteration)? -/
def PC.inHookRegion {E : Type} : PC E → Bool
  | .gotLock _ => true
  | .draining => true
  | _ => false

/-- Does this control point belong to the holder of the dispatch guard
(between a successful compare-exchange and the `store(false)`)? -/
def PC.isHolder {E : Type} : PC E → Bool
  | .gotLock _ => true
  | .draining => true
  | .releasing => true
  | _ => false

/-- Is this caller inside a dispatch call holding an event that has been
submitted but neither run, enqueued nor dropped yet? -/
def PC.holdsEvent {E : Type} : PC E → Bool
  | .gotLock _ => true
  | .wantEnqueue _ => true
  | _ => false

/-- Global state of the interleaved system: per-caller control points, the
`DISPATCH_ACTIVE` flag, the `PENDING_QUEUE`, the `DROPPED_EVENTS` counter,
the machine state and context, and ghost counters of submitted events,
events run immediately, and events dequeued and run. -/
structure CSys (n : Nat) (S Ctx E : Type) where
  pcs : Fin n → PC E
  active : Bool
  queue : List E
  dropped : Nat
  fsm : S
  ctx : Ctx
  submitted : Nat
  immRun : Nat
  deqRun : Nat

/-- The initial system: nobody dispatching, flag free, queue empty. -/
def CSys.isInitial {n : Nat} {S Ctx E : Type} (s0 : S) (c0 : Ctx)
    (σ : CSys n S Ctx E) : Prop :=
  σ = ⟨fun _ => PC.idle, false, [], 0, s0, c0, 0, 0, 0⟩


/-- One atomic action of caller `t` in the concurrent `dispatch`,
determined by the caller's control point: `some e` starts a new
`dispatch(ctx, e)` call from `idle` (the compare-exchange at lines
887-889); `Option.none` continues the call in progress — the immediate
`do_dispatch_internal`, one drain-loop `pop_front` critical section with
the hook run it feeds (or the empty-queue observation breaking the loop),
the `store(false)` release at line 912, or the `push_back` critical section
(lines 916-921) followed on overflow by the `fetch_add` on the drop
counter.  Returns `Option.none` when the action is not enabled. -/
def cstep {n : Nat} {S Ctx E : Type} (m : FSMDef S Ctx E) (cap : Nat)
    (σ : CSys n S Ctx E) (t : Fin n) (call : Option E) : Option (CSys n S Ctx E) :=
  match σ.pcs t, call with
  | PC.idle, some e =>
      if σ.active = false then
        some { σ with pcs := Function.update σ.pcs t (PC.gotLock e),
                      active := true, submitted := σ.submitted + 1 }
      else
        some { σ with pcs := Function.update σ.pcs t (PC.wantEnqueue e),
                      submitted := σ.submitted + 1 }
  | PC.gotLock e, Option.none =>
      some { σ with pcs := Function.update σ.pcs t PC.draining,
                    fsm := (m.do_dispatch_internal σ.fsm σ.ctx e).1,
                    ctx := (m.do_dispatch_internal σ.fsm σ.ctx e).2.1,
                    immRun := σ.immRun + 1 }
  | PC.draining, Option.none =>
      match σ.queue with
      | e :: q =>
          some { σ with queue := q,
                        fsm := (m.do_dispatch_internal σ.fsm σ.ctx e).1,
                        ctx := (m.do_dispatch_internal σ.fsm σ.ctx e).2.1,
                        deqRun := σ.deqRun + 1 }
      | [] => some { σ with pcs := Function.update σ.pcs t PC.releasing }
  | PC.releasing, Option.none =>
      some { σ with pcs := Function.update σ.pcs t PC.idle, active := false }
  | PC.wantEnqueue e, Option.none =>
      if σ.queue.length < cap then
        some { σ with pcs := Function.update σ.pcs t PC.idle,
                      queue := σ.queue ++ [e] }
      else
        some { σ with pcs := Function.update σ.pcs t PC.idle,
                      dropped := σ.dropped + 1 }
  | _, _ => Option.none

/-- States reachable from the initial system by interleaved atomic steps
of arbitrary callers. -/
inductive Reachable {n : Nat} {S Ctx E : Type} (m : FSMDef S Ctx E) (cap : Nat)
    (s0 : S) (c0 : Ctx) : CSys n S Ctx E → Prop where
  | start (σ : CSys n S Ctx E) (h : σ.isInitial s0 c0) : Reachable m cap s0 c0 σ
  | tail (σ σ1 : CSys n S Ctx E) (t : Fin n) (call : Option E)
      (h : Reachable m cap s0 c0 σ) (hs : cstep m cap σ t call = some σ1) :
      Reachable m cap s0 c0 σ1

/-- Does the next atomic step of caller `t` from `σ` invoke a user hook
(the immediate event's `do_dispatch_internal`, or a drain-loop iteration
on a nonempty queue)? -/
def invokesHook {n : Nat} {S Ctx E : Type} (σ : CSys n S Ctx E) (t : Fin n) : Bool :=
  match σ.pcs t with
  | PC.gotLock _ => true
  | PC.draining => !σ.queue.isEmpty
  | _ => false

/-- Number of callers currently holding a submitted-but-unsettled event. -/
def pendCount {n : Nat} {E : Type} (f : Fin n → PC E) : Nat :=
  ∑ t : Fin n, (if (f t).holdsEvent then 1 else 0)

/-- Mutual-exclusion invariant: at most one caller is between a successful
compare-exchange and the releasing store, and when the flag is free no
caller is. -/
def mutexInv {n : Nat} {S Ctx E : Type} (σ : CSys n S Ctx E) : Prop :=
  (∀ t1 t2 : Fin n, (σ.pcs t1).isHolder = true → (σ.pcs t2).isHolder = true → t1 = t2) ∧
  (σ.active = false → ∀ t : Fin n, (σ.pcs t).isHolder = false)

/-- Event-accounting invariant: submitted events are partitioned into run
immediately, dequeued and run, dropped, still pending in the queue, and
still in the hands of a caller inside `dispatch`. -/
def accInv {n : Nat} {S Ctx E : Type} (σ : CSys n S Ctx E) : Prop :=
  σ.submitted = σ.immRun + σ.deqRun + σ.dropped + σ.queue.length + pendCount σ.pcs

/-- The pending queue never exceeds its capacity. -/
def queueInv {n : Nat} {S Ctx E : Type} (cap : Nat) (σ : CSys n S Ctx E) : Prop :=
  σ.queue.length ≤ cap

/-! ## Concrete machines and runs used to instantiate the general theorems -/

/-- A trivial one-state machine (unit state, context and event) whose
`process` always stays; used to exercise the dispatch protocol itself. -/
def mUnit : FSMDef Unit Unit Unit :=
  ⟨fun _ c _ => (c, Transition.none), fun _ c => c, fun _ c => c⟩

/-- A one-state machine over numeric events that accumulates each processed
event into its context and stays; used to observe processing order. -/
def mCount : FSMDef Unit Nat Nat :=
  ⟨fun _ c e => (c + e, Transition.none), fun _ c => c, fun _ c => c⟩

/-- A single-caller system state whose caller is at the `releasing` control
point with the flag still busy. -/
def σr : CSys 1 Unit Nat Nat :=
  ⟨fun _ => PC.releasing, true, [], 0, (), 0, 1, 1, 0⟩

/-- A machine whose `process` bumps the context and self-transitions to the
current state value. -/
def mSelf : FSMDef Bool Nat Unit :=
  ⟨fun s c _ => (c + 1, Transition.to s), fun _ c => c + 10, fun _ c => c + 100⟩

/-- A machine whose `process` mutates the context and stays. -/
def mStay : FSMDef Bool Nat Unit :=
  ⟨fun _ c _ => (c + 5, Transition.none), fun _ c => c + 10, fun _ c => c + 100⟩

/-- A faulting machine whose `exit` hook panics (payload 5). -/
def mExitPanic : FSMPanic Bool Nat Unit Nat :=
  ⟨fun _ c _ => Except.ok (c + 1, Transition.to true),
   fun _ c => Except.ok (c + 3),
   fun _ _ => Except.error 5⟩

/-- A faulting machine whose `entry` hook panics (payload 7). -/
def mEntryPanic : FSMPanic Bool Nat Unit Nat :=
  ⟨fun _ c _ => Except.ok (c + 1, Transition.to true),
   fun _ _ => Except.error 7,
   fun _ c => Except.ok (c + 2)⟩

/-- Two-caller run exhibiting the release-window race: initial state. -/
def σc0 : CSys 2 Unit Unit Unit :=
  ⟨fun _ => PC.idle, false, [], 0, (), (), 0, 0, 0⟩

/-- Caller 0 wins the compare-exchange with its immediate event. -/
def σc1 : CSys 2 Unit Unit Unit :=
  { σc0 with pcs := Function.update σc0.pcs 0 (PC.gotLock ()),
             active := true, submitted := σc0.submitted + 1 }

/-- Caller 0 runs the immediate event and enters the drain loop. -/
def σc2 : CSys 2 Unit Unit Unit :=
  { σc1 with pcs := Function.update σc1.pcs 0 PC.draining,
             fsm := (mUnit.do_dispatch_internal σc1.fsm σc1.ctx ()).1,
             ctx := (mUnit.do_dispatch_internal σc1.fsm σc1.ctx ()).2.1,
             immRun := σc1.immRun + 1 }

/-- Caller 0 observes the queue empty and breaks out of the drain loop;
the `store(false)` has not yet executed. -/
def σc3 : CSys 2 Unit Unit Unit :=
  { σc2 with pcs := Function.update σc2.pcs 0 PC.releasing }

/-- Caller 1 dispatches, loses the compare-exchange (flag still busy). -/
def σc4 : CSys 2 Unit Unit Unit :=
  { σc3 with pcs := Function.update σc3.pcs 1 (PC.wantEnqueue ()),
             submitted := σc3.submitted + 1 }

/-- Caller 1 enqueues its event into the pending queue. -/
def σc5 : CSys 2 Unit Unit Unit :=
  { σc4 with pcs := Function.update σc4.pcs 1 PC.idle,
             queue := σc4.queue ++ [()] }

/-- Caller 0 stores the flag back to free and returns: both callers are
done, yet one accepted event is stranded in the queue. -/
def σc6 : CSys 2 Unit Unit Unit :=
  { σc5 with pcs := Function.update σc5.pcs 0 PC.idle, active := false }

section Invariants

variable {n : Nat} {S Ctx E : Type}

/-- Exhaustive case analysis of a successful atomic step: each disjunct is
one source-level action with its enabling condition and its effect. -/
theorem cstep_cases {m : FSMDef S Ctx E} {cap : Nat} {σ σ1 : CSys n S Ctx E}
    {t : Fin n} {call : Option E} (hs : cstep m cap σ t call = some σ1) :
    (∃ e, σ.pcs t = PC.idle ∧ call = some e ∧ σ.active = false ∧
      σ1 = { σ with pcs := Function.update σ.pcs t (PC.gotLock e),
                    active := true, submitted := σ.submitted + 1 }) ∨
    (∃ e, σ.pcs t = PC.idle ∧ call = some e ∧ σ.active = true ∧
      σ1 = { σ with pcs := Function.update σ.pcs t (PC.wantEnqueue e),
                    submitted := σ.submitted + 1 }) ∨
    (∃ e, σ.pcs t = PC.gotLock e ∧ call = Option.none ∧
      σ1 = { σ with pcs := Function.update σ.pcs t PC.draining,
                    fsm := (m.do_dispatch_internal σ.fsm σ.ctx e).1,
                    ctx := (m.do_dispatch_internal σ.fsm σ.ctx e).2.1,
                    immRun := σ.immRun + 1 }) ∨
    (∃ e q, σ.pcs t = PC.draining ∧ call = Option.none ∧ σ.queue = e :: q ∧
      σ1 = { σ with queue := q,
                    fsm := (m.do_dispatch_internal σ.fsm σ.ctx e).1,
                    ctx := (m.do_dispatch_internal σ.fsm σ.ctx e).2.1,
                    deqRun := σ.deqRun + 1 }) ∨
    (σ.pcs t = PC.draining ∧ call = Option.none ∧ σ.queue = [] ∧
      σ1 = { σ with pcs := Function.update σ.pcs t PC.releasing }) ∨
    (σ.pcs t = PC.releasing ∧ call = Option.none ∧
      σ1 = { σ with pcs := Function.update σ.pcs t PC.idle, active := false }) ∨
    (∃ e, σ.pcs t = PC.wantEnqueue e ∧ call = Option.none ∧ σ.queue.length < cap ∧
      σ1 = { σ with pcs := Function.update σ.pcs t PC.idle,
                    queue := σ.queue ++ [e] }) ∨
    (∃ e, σ.pcs t = PC.wantEnqueue e ∧ call = Option.none ∧ ¬ σ.queue.length < cap ∧
      σ1 = { σ with pcs := Function.update σ.pcs t PC.idle,
                    dropped := σ.dropped + 1 }) := by
  unfold cstep at hs
  split at hs
  · rename_i x e heq
    by_cases hfl : σ.active = false
    · rw [if_pos hfl] at hs
      exact Or.inl ⟨e, heq, rfl, hfl, (Option.some.inj hs).symm⟩
    · rw [if_neg hfl] at hs
      exact Or.inr (Or.inl ⟨e, heq, rfl, by simpa using hfl,
        (Option.some.inj hs).symm⟩)
  · rename_i x e heq
    exact Or.inr (Or.inr (Or.inl ⟨e, heq, rfl, (Option.some.inj hs).symm⟩))
  · rename_i x heq
    split at hs
    · rename_i e q hq
      exact Or.inr (Or.inr (Or.inr (Or.inl
        ⟨e, q, heq, rfl, hq, (Option.some.inj hs).symm⟩)))
    · rename_i hq
      exact Or.inr (Or.inr (Or.inr (Or.inr (Or.inl
        ⟨heq, rfl, hq, (Option.some.inj hs).symm⟩))))
  · rename_i x heq
    exact Or.inr (Or.inr (Or.inr (Or.inr (Or.inr (Or.inl
      ⟨heq, rfl, (Option.some.inj hs).symm⟩)))))
  · rename_i x e heq
    by_cases hlen : σ.queue.length < cap
    · rw [if_pos hlen] at hs
      exact Or.inr (Or.inr (Or.inr (Or.inr (Or.inr (Or.inr (Or.inl
        ⟨e, heq, rfl, hlen, (Option.some.inj hs).symm⟩))))))
    · rw [if_neg hlen] at hs
      exact Or.inr (Or.inr (Or.inr (Or.inr (Or.inr (Or.inr (Or.inr
        ⟨e, heq, rfl, hlen, (Option.some.inj hs).symm⟩))))))
  · exact Option.noConfusion hs
theorem pendCount_update (f : Fin n → PC E) (t : Fin n) (v : PC E) :
    pendCount (Function.update f t v) + (if (f t).holdsEvent then 1 else 0) =
      pendCount f + (if v.holdsEvent then 1 else 0) := by
  have hsplit : ∀ h : Fin n → PC E,
      pendCount h = (if (h t).holdsEvent then 1 else 0) +
        ∑ x ∈ Finset.univ.erase t, (if (h x).holdsEvent then 1 else 0) := by
    intro h
    exact (Finset.add_sum_erase _ _ (Finset.mem_univ t)).symm
  rw [hsplit (Function.update f t v), hsplit f]
  have hsame : ∑ x ∈ Finset.univ.erase t,
        (if ((Function.update f t v) x).holdsEvent then 1 else 0) =
      ∑ x ∈ Finset.univ.erase t, (if (f x).holdsEvent then 1 else 0) := by
    refine Finset.sum_congr rfl ?_
    intro x hx
    rw [Function.update_noteq (Finset.ne_of_mem_erase hx)]
  rw [hsame, Function.update_same]
  omega

/-- The holder predicate after rewriting one caller's control point. -/
theorem isHolder_update (f : Fin n → PC E) (t t1 : Fin n) (v : PC E) :
    (Function.update f t v t1).isHolder =
      if t1 = t then v.isHolder else (f t1).isHolder := by
  by_cases h : t1 = t
  · subst h
    rw [Function.update_same, if_pos rfl]
  · rw [Function.update_noteq h, if_neg h]

theorem mutexInv_step {m : FSMDef S Ctx E} {cap : Nat} {t : Fin n} {call : Option E}
    {σ σ1 : CSys n S Ctx E} (hinv : mutexInv σ) (hs : cstep m cap σ t call = some σ1) :
    mutexInv σ1 := by
  obtain ⟨huniq, hfree⟩ := hinv
  rcases cstep_cases hs with
    ⟨e, hpc, hcall, hfl, rfl⟩ | ⟨e, hpc, hcall, hfl, rfl⟩ | ⟨e, hpc, hcall, rfl⟩ |
    ⟨e, q, hpc, hcall, hq, rfl⟩ | ⟨hpc, hcall, hq, rfl⟩ | ⟨hpc, hcall, rfl⟩ |
    ⟨e, hpc, hcall, hlen, rfl⟩ | ⟨e, hpc, hcall, hlen, rfl⟩
  · -- acquire: previously no caller held; now only t does
    refine ⟨?_, ?_⟩
    · intro t1 t2 h1 h2
      simp only [isHolder_update] at h1 h2
      by_cases e1 : t1 = t
      · by_cases e2 : t2 = t
        · rw [e1, e2]
        · rw [if_neg e2] at h2
          exact absurd (hfree hfl t2) (by simp [h2])
      · rw [if_neg e1] at h1
        exact absurd (hfree hfl t1) (by simp [h1])
    · intro hfalse
      exact absurd (show true = false from hfalse) (by simp)
  · -- acquireFail: control point goes idle → wantEnqueue, neither holds
    refine ⟨?_, ?_⟩
    · intro t1 t2 h1 h2
      simp only [isHolder_update] at h1 h2
      by_cases e1 : t1 = t
      · rw [if_pos e1] at h1
        exact absurd h1 (by simp [PC.isHolder])
      · by_cases e2 : t2 = t
        · rw [if_pos e2] at h2
          exact absurd h2 (by simp [PC.isHolder])
        · rw [if_neg e1] at h1
          rw [if_neg e2] at h2
          exact huniq t1 t2 h1 h2
    · intro hfalse
      exact absurd (show σ.active = false from hfalse) (by simp [hfl])
  · -- runImmediate: holder stays holder (gotLock → draining)
    refine ⟨?_, ?_⟩
    · intro t1 t2 h1 h2
      simp only [isHolder_update] at h1 h2
      by_cases e1 : t1 = t
      · by_cases e2 : t2 = t
        · rw [e1, e2]
        · rw [if_neg e2] at h2
          exact absurd (huniq t2 t h2 (by rw [hpc]; rfl)) e2
      · rw [if_neg e1] at h1
        by_cases e2 : t2 = t
        · exact absurd (huniq t1 t h1 (by rw [hpc]; rfl)) e1
        · rw [if_neg e2] at h2
          exact huniq t1 t2 h1 h2
    · intro hfalse
      exact absurd (hfree (show σ.active = false from hfalse) t)
        (by rw [hpc]; simp [PC.isHolder])
  · -- drainStep: control points unchanged
    exact ⟨huniq, hfree⟩
  · -- drainEmpty: holder stays holder (draining → releasing)
    refine ⟨?_, ?_⟩
    · intro t1 t2 h1 h2
      simp only [isHolder_update] at h1 h2
      by_cases e1 : t1 = t
      · by_cases e2 : t2 = t
        · rw [e1, e2]
        · rw [if_neg e2] at h2
          exact absurd (huniq t2 t h2 (by rw [hpc]; rfl)) e2
      · rw [if_neg e1] at h1
        by_cases e2 : t2 = t
        · exact absurd (huniq t1 t h1 (by rw [hpc]; rfl)) e1
        · rw [if_neg e2] at h2
          exact huniq t1 t2 h1 h2
    · intro hfalse
      exact absurd (hfree (show σ.active = false from hfalse) t)
        (by rw [hpc]; simp [PC.isHolder])
  · -- release: the unique holder leaves; flag free with no holder left
    refine ⟨?_, ?_⟩
    · intro t1 t2 h1 h2
      simp only [isHolder_update] at h1 h2
      by_cases e1 : t1 = t
      · rw [if_pos e1] at h1
        exact absurd h1 (by simp [PC.isHolder])
      · by_cases e2 : t2 = t
        · rw [if_pos e2] at h2
          exact absurd h2 (by simp [PC.isHolder])
        · rw [if_neg e1] at h1
          rw [if_neg e2] at h2
          exact huniq t1 t2 h1 h2
    · intro _ t1
      simp only [isHolder_update]
      by_cases e1 : t1 = t
      · rw [if_pos e1]
        rfl
      · rw [if_neg e1]
        by_contra hcon
        have hh : (σ.pcs t1).isHolder = true := by
          cases hv : (σ.pcs t1).isHolder
          · exact absurd hv hcon
          · rfl
        exact absurd (huniq t1 t hh (by rw [hpc]; rfl)) e1
  · -- enqueueOk: wantEnqueue → idle, neither holds
    refine ⟨?_, ?_⟩
    · intro t1 t2 h1 h2
      simp only [isHolder_update] at h1 h2
      by_cases e1 : t1 = t
      · rw [if_pos e1] at h1
        exact absurd h1 (by simp [PC.isHolder])
      · by_cases e2 : t2 = t
        · rw [if_pos e2] at h2
          exact absurd h2 (by simp [PC.isHolder])
        · rw [if_neg e1] at h1
          rw [if_neg e2] at h2
          exact huniq t1 t2 h1 h2
    · intro hfalse t1
      simp only [isHolder_update]
      by_cases e1 : t1 = t
      · rw [if_pos e1]
        rfl
      · rw [if_neg e1]
        exact hfree (show σ.active = false from hfalse) t1
  · -- enqueueDrop: wantEnqueue → idle, neither holds
    refine ⟨?_, ?_⟩
    · intro t1 t2 h1 h2
      simp only [isHolder_update] at h1 h2
      by_cases e1 : t1 = t
      · rw [if_pos e1] at h1
        exact absurd h1 (by simp [PC.isHolder])
      · by_cases e2 : t2 = t
        · rw [if_pos e2] at h2
          exact absurd h2 (by simp [PC.isHolder])
        · rw [if_neg e1] at h1
          rw [if_neg e2] at h2
          exact huniq t1 t2 h1 h2
    · intro hfalse t1
      simp only [isHolder_update]
      by_cases e1 : t1 = t
      · rw [if_pos e1]
        rfl
      · rw [if_neg e1]
        exact hfree (show σ.active = false from hfalse) t1

theorem mutexInv_reachable {m : FSMDef S Ctx E} {cap : Nat} {s0 : S} {c0 : Ctx}
    {σ : CSys n S Ctx E} (h : Reachable m cap s0 c0 σ) : mutexInv σ := by
  induction h with
  | start σ h0 =>
      rw [h0]
      exact ⟨fun t1 t2 h1 _ => absurd h1 (by simp [PC.isHolder]), fun _ t => rfl⟩
  | tail σ σ1 t call h hs ih => exact mutexInv_step ih hs

theorem accInv_step {m : FSMDef S Ctx E} {cap : Nat} {t : Fin n} {call : Option E}
    {σ σ1 : CSys n S Ctx E} (hinv : accInv σ) (hs : cstep m cap σ t call = some σ1) :
    accInv σ1 := by
  unfold accInv at hinv ⊢
  rcases cstep_cases hs with
    ⟨e, hpc, hcall, hfl, rfl⟩ | ⟨e, hpc, hcall, hfl, rfl⟩ | ⟨e, hpc, hcall, rfl⟩ |
    ⟨e, q, hpc, hcall, hq, rfl⟩ | ⟨hpc, hcall, hq, rfl⟩ | ⟨hpc, hcall, rfl⟩ |
    ⟨e, hpc, hcall, hlen, rfl⟩ | ⟨e, hpc, hcall, hlen, rfl⟩
  · have hp := pendCount_update σ.pcs t (PC.gotLock e)
    rw [hpc] at hp
    simp [PC.holdsEvent] at hp
    simp only
    omega
  · have hp := pendCount_update σ.pcs t (PC.wantEnqueue e)
    rw [hpc] at hp
    simp [PC.holdsEvent] at hp
    simp only
    omega
  · have hp := pendCount_update σ.pcs t PC.draining
    rw [hpc] at hp
    simp [PC.holdsEvent] at hp
    simp only
    omega
  · rw [hq] at hinv
    simp only [List.length_cons] at hinv
    simp only
    omega
  · have hp := pendCount_update σ.pcs t PC.releasing
    rw [hpc] at hp
    simp [PC.holdsEvent] at hp
    simp only
    omega
  · have hp := pendCount_update σ.pcs t PC.idle
    rw [hpc] at hp
    simp [PC.holdsEvent] at hp
    simp only
    omega
  · have hp := pendCount_update σ.pcs t PC.idle
    rw [hpc] at hp
    simp [PC.holdsEvent] at hp
    simp only [List.length_append, List.length_cons, List.length_nil]
    omega
  · have hp := pendCount_update σ.pcs t PC.idle
    rw [hpc] at hp
    simp [PC.holdsEvent] at hp
    simp only
    omega

theorem accInv_reachable {m : FSMDef S Ctx E} {cap : Nat} {s0 : S} {c0 : Ctx}
    {σ : CSys n S Ctx E} (h : Reachable m cap s0 c0 σ) : accInv σ := by
  induction h with
  | start σ h0 =>
      rw [h0]
      unfold accInv pendCount
      simp [PC.holdsEvent]
  | tail σ σ1 t call h hs ih => exact accInv_step ih hs

theorem queueInv_step {m : FSMDef S Ctx E} {cap : Nat} {t : Fin n} {call : Option E}
    {σ σ1 : CSys n S Ctx E} (hinv : queueInv cap σ) (hs : cstep m cap σ t call = some σ1) :
    queueInv cap σ1 := by
  unfold queueInv at hinv ⊢
  rcases cstep_cases hs with
    ⟨e, hpc, hcall, hfl, rfl⟩ | ⟨e, hpc, hcall, hfl, rfl⟩ | ⟨e, hpc, hcall, rfl⟩ |
    ⟨e, q, hpc, hcall, hq, rfl⟩ | ⟨hpc, hcall, hq, rfl⟩ | ⟨hpc, hcall, rfl⟩ |
    ⟨e, hpc, hcall, hlen, rfl⟩ | ⟨e, hpc, hcall, hlen, rfl⟩
  · exact hinv
  · exact hinv
  · exact hinv
  · rw [hq] at hinv
    simp only [List.length_cons] at hinv
    simp only
    omega
  · exact hinv
  · exact hinv
  · simp only [List.length_append, List.length_cons, List.length_nil]
    omega
  · exact hinv

theorem queueInv_reachable {m : FSMDef S Ctx E} {cap : Nat} {s0 : S} {c0 : Ctx}
    {σ : CSys n S Ctx E} (h : Reachable m cap s0 c0 σ) : queueInv cap σ := by
  induction h with
  | start σ h0 =>
      rw [h0]
      unfold queueInv
      simp
  | tail σ σ1 t call h hs ih => exact queueInv_step ih hs

/-- When all callers are idle, no caller holds an unsettled event. -/
theorem pendCount_zero_of_idle {f : Fin n → PC E} (h : ∀ t : Fin n, f t = PC.idle) :
    pendCount f = 0 := by
  unfold pendCount
  refine Finset.sum_eq_zero ?_
  intro t _
  rw [h t]
  rfl

end Invariants

section SeqLemmas

variable {S Ctx E : Type}

theorem procEvents_append (a b : List (Hook S E)) :
    procEvents (a ++ b) = procEvents a ++ procEvents b := by
  induction a with
  | nil => rfl
  | cons h t ih =>
      cases h with
      | proc e => simp [procEvents, ih]
      | exit s => simp [procEvents, ih]
      | entry s => simp [procEvents, ih]

theorem procEvents_do_dispatch (m : FSMDef S Ctx E) (s : S) (c : Ctx) (e : E) :
    procEvents (m.do_dispatch_internal s c e).2.2 = [e] := by
  unfold FSMDef.do_dispatch_internal
  rcases h : m.on_process s c e with ⟨c1, tr⟩
  cases tr <;> simp [procEvents]

theorem drainLoop_procEvents (m : FSMDef S Ctx E) (q : List E) :
    ∀ (s : S) (c : Ctx), procEvents (m.drainLoop s c q).2.2 = q := by
  induction q with
  | nil => intro s c; rfl
  | cons e q ih =>
      intro s c
      unfold FSMDef.drainLoop
      simp only
      rw [procEvents_append, procEvents_do_dispatch, ih]
      rfl

/-- While the guard is held elsewhere and there is room for all of `es`,
every dispatch appends its event and nothing is dropped. -/
theorem dispatchSeqAll_busy_room (m : FSMDef S Ctx E) (cap : Nat) (debug : Bool)
    (es : List E) :
    ∀ st : ProtoState S Ctx E, st.dispatch_active = true →
      st.pending_queue.length + es.length ≤ cap →
      m.dispatchSeqAll cap debug st es =
        ({ st with pending_queue := st.pending_queue ++ es }, [], false) := by
  induction es with
  | nil =>
      intro st hact _
      unfold FSMDef.dispatchSeqAll
      simp
  | cons e es ih =>
      intro st hact hroom
      unfold FSMDef.dispatchSeqAll FSMDef.dispatchSeq
      rw [if_neg (by rw [hact]; simp)]
      unfold dispatchBusy push_back
      rw [if_pos (by simp at hroom ⊢; omega)]
      simp only
      rw [ih { st with pending_queue := st.pending_queue ++ [e] } hact
        (by simp at hroom ⊢; omega)]
      simp

/-- The step relation only ever stores the guard flag back to free from
the `releasing` control point (the holder that observed the empty queue). -/
theorem cstep_release_only {n : Nat} {m : FSMDef S Ctx E} {cap : Nat} {t : Fin n}
    {call : Option E} {σ σ1 : CSys n S Ctx E} (hs : cstep m cap σ t call = some σ1)
    (hact : σ.active = true) (hact1 : σ1.active = false) : σ.pcs t = PC.releasing := by
  rcases cstep_cases hs with
    ⟨e, hpc, hcall, hfl, rfl⟩ | ⟨e, hpc, hcall, hfl, rfl⟩ | ⟨e, hpc, hcall, rfl⟩ |
    ⟨e, q, hpc, hcall, hq, rfl⟩ | ⟨hpc, hcall, hq, rfl⟩ | ⟨hpc, hcall, rfl⟩ |
    ⟨e, hpc, hcall, hlen, rfl⟩ | ⟨e, hpc, hcall, hlen, rfl⟩
  · rw [hfl] at hact
    exact absurd hact (by simp)
  · exact absurd (show σ.active = false from hact1) (by simp [hfl])
  · exact absurd (show σ.active = false from hact1) (by simp [hact])
  · rw [hact] at hact1
    exact absurd (show (true : Bool) = false from hact1) (by simp)
  · exact absurd (show σ.active = false from hact1) (by simp [hact])
  · exact hpc
  · exact absurd (show σ.active = false from hact1) (by simp [hact])
  · exact absurd (show σ.active = false from hact1) (by simp [hact])

/-- A caller about to invoke a hook holds the guard. -/
theorem invokesHook_isHolder {n : Nat} {σ : CSys n S Ctx E} {t : Fin n}
    (h : invokesHook σ t = true) : (σ.pcs t).isHolder = true := by
  unfold invokesHook at h
  cases hpc : σ.pcs t <;> rw [hpc] at h <;> first | rfl | exact absurd h (by simp)

/-- The stranded-event run is a genuine run of the protocol. -/
theorem reachable_σc6 : Reachable mUnit 16 () () σc6 := by
  refine Reachable.tail σc5 σc6 0 Option.none ?_ rfl
  refine Reachable.tail σc4 σc5 1 Option.none ?_ rfl
  refine Reachable.tail σc3 σc4 1 (some ()) ?_ rfl
  refine Reachable.tail σc2 σc3 0 Option.none ?_ rfl
  refine Reachable.tail σc1 σc2 0 Option.none ?_ rfl
  refine Reachable.tail σc0 σc1 0 (some ()) ?_ rfl
  exact Reachable.start σc0 rfl

end SeqLemmas

/-! ## Claim theorems -/

/-- Claim C3: when `process` returns `MoveTo(new_state)`, the runner
invokes exactly one `exit` on the current state, then exactly one `entry`
on `new_state`, then commits `new_state` as the stored state, in that
order (the context threads through `exit` before `entry`); no tag
condition restricts `ns`, so the full sequence runs for self-transitions
(`ns` equal to or sharing the variant of `s`) as well. -/
theorem moveTo_lifecycle {S Ctx E : Type} (m : FSMDef S Ctx E) (s : S) (c c1 : Ctx)
    (ns : S) (e : E) (h : m.on_process s c e = (c1, Transition.to ns)) :
    m.do_dispatch_internal s c e =
      (ns, m.on_entry ns (m.on_exit s c1),
        [Hook.proc e, Hook.exit s, Hook.entry ns]) := by
  unfold FSMDef.do_dispatch_internal
  rw [h]

/-- Claim C3 witness: `mSelf` self-transitions (`MoveTo` of the very same
state value `true`); `exit` then `entry` both run and the state is
recommitted. -/
theorem moveTo_lifecycle_witness :
    mSelf.do_dispatch_internal true 0 () =
      (true, 111, [Hook.proc (), Hook.exit true, Hook.entry true]) :=
  moveTo_lifecycle mSelf true 0 1 true () rfl

/-- Claim C4: when `process` returns `Stay` (`Transition::None`), neither
`exit` nor `entry` is invoked and the stored state is unchanged, even when
`process` mutated the context (`c1` is kept as the context). -/
theorem stay_frame {S Ctx E : Type} (m : FSMDef S Ctx E) (s : S) (c c1 : Ctx) (e : E)
    (h : m.on_process s c e = (c1, Transition.none)) :
    m.do_dispatch_internal s c e = (s, c1, [Hook.proc e]) := by
  unfold FSMDef.do_dispatch_internal
  rw [h]

/-- Claim C4 witness: `mStay` mutates the context (0 becomes 5) and stays;
the stored state is unchanged and no `exit`/`entry` appears in the trace. -/
theorem stay_frame_witness :
    mStay.do_dispatch_internal false 0 () = (false, 5, [Hook.proc ()]) ∧ (5 : Nat) ≠ 0 :=
  ⟨stay_frame mStay false 0 5 () rfl, by decide⟩

/-- Claim C8: a panic in a hook during a `MoveTo` transition propagates to
the caller unmodified and leaves the container at the exact point reached:
if `exit` panics, no `entry` runs and the old state stays stored; if
`entry` panics, `exit` has run but the commit has not, so the old state
stays stored. -/
theorem hook_panic_partial_state {S Ctx E P : Type} (m : FSMPanic S Ctx E P)
    (s : S) (c c1 : Ctx) (ns : S) (e : E) (p : P) :
    (m.on_process s c e = Except.ok (c1, Transition.to ns) →
      m.on_exit s c1 = Except.error p →
      m.do_dispatch s c e = (s, c1, [Hook.proc e, Hook.exit s], some p)) ∧
    (∀ c2 : Ctx, m.on_process s c e = Except.ok (c1, Transition.to ns) →
      m.on_exit s c1 = Except.ok c2 → m.on_entry ns c2 = Except.error p →
      m.do_dispatch s c e = (s, c2, [Hook.proc e, Hook.exit s, Hook.entry ns], some p)) := by
  constructor
  · intro h1 h2
    unfold FSMPanic.do_dispatch
    rw [h1]
    simp [h2]
  · intro c2 h1 h2 h3
    unfold FSMPanic.do_dispatch
    rw [h1]
    simp [h2, h3]

/-- Claim C8 witness: `mExitPanic` propagates payload 5 from `exit` with
the old state `false` stored and no `entry` in the trace; `mEntryPanic`
propagates payload 7 from `entry` with `exit` run but the old state still
stored. -/
theorem hook_panic_partial_state_witness :
    mExitPanic.do_dispatch false 0 () =
      (false, 1, [Hook.proc (), Hook.exit false], some 5) ∧
    mEntryPanic.do_dispatch false 0 () =
      (false, 3, [Hook.proc (), Hook.exit false, Hook.entry true], some 7) :=
  ⟨(hook_panic_partial_state mExitPanic false 0 1 true () 5).1 rfl rfl,
   (hook_panic_partial_state mEntryPanic false 0 1 true () 7).2 3 rfl rfl rfl⟩

/-- Claim C9: `init` invokes exactly the `entry` hook of the current
(initial) state — no `process`, no `exit`; a run that calls `init` first
differs from one that omits it exactly by that one leading `entry`
invocation, and a run without `init` still dispatches every event (its
first hook is the `process` of the first event, never an error). -/
theorem init_only_entry {S Ctx E : Type} (m : FSMDef S Ctx E) (s : S) (c : Ctx)
    (e : E) (es : List E) :
    m.init s c = (m.on_entry s c, [Hook.entry s]) ∧
    m.runWithInit s c es =
      ((m.runNoInit s (m.on_entry s c) es).1,
       (m.runNoInit s (m.on_entry s c) es).2.1,
       Hook.entry s :: (m.runNoInit s (m.on_entry s c) es).2.2) ∧
    (m.runNoInit s c (e :: es)).2.2.head? = some (Hook.proc e) := by
  refine ⟨rfl, rfl, ?_⟩
  have hdd : ∃ tl, (m.do_dispatch_internal s c e).2.2 = Hook.proc e :: tl := by
    unfold FSMDef.do_dispatch_internal
    rcases h : m.on_process s c e with ⟨c1, tr⟩
    cases tr
    · exact ⟨[], rfl⟩
    · exact ⟨_, rfl⟩
  obtain ⟨tl, htl⟩ := hdd
  unfold FSMDef.runNoInit
  simp only
  rw [htl]
  rfl

/-- Claim C2: a dispatch that wins the guard processes the immediate event
first, then the queued events in FIFO arrival order, reaches the empty
queue, and only then is the flag back to free (the resulting protocol
state has an empty queue and a free flag); in the interleaved model, the
store back to free is performed only by the caller standing at the
`releasing` point, reached from the drain loop's empty-queue observation. -/
theorem dispatch_drain_order {S Ctx E : Type} (m : FSMDef S Ctx E) (cap : Nat)
    (debug : Bool) (st : ProtoState S Ctx E) (e : E) {n : Nat}
    (σ σ1 : CSys n S Ctx E) (t : Fin n) (call : Option E)
    (hfree : st.dispatch_active = false) :
    procEvents (m.dispatchSeq cap debug st e).2.1 = e :: st.pending_queue ∧
    (m.dispatchSeq cap debug st e).1.pending_queue = [] ∧
    (m.dispatchSeq cap debug st e).1.dispatch_active = false ∧
    (cstep m cap σ t call = some σ1 → σ.active = true → σ1.active = false →
      σ.pcs t = PC.releasing) := by
  refine ⟨?_, ?_, ?_, fun hs h h1 => cstep_release_only hs h h1⟩
  · unfold FSMDef.dispatchSeq
    rw [if_pos hfree]
    simp only
    rw [procEvents_append, procEvents_do_dispatch, drainLoop_procEvents]
    rfl
  · unfold FSMDef.dispatchSeq
    rw [if_pos hfree]
  · unfold FSMDef.dispatchSeq
    rw [if_pos hfree]

/-- Claim C2 witness: with pending events 2, 3 and immediate event 1, the
holder processes 1, 2, 3 in that order and ends with an empty queue and a
free flag; the concrete release step is taken from `releasing`. -/
theorem dispatch_drain_order_witness :
    procEvents (mCount.dispatchSeq 16 false ⟨false, [2, 3], 0, (), 0⟩ 1).2.1 =
      [1, 2, 3] ∧
    (mCount.dispatchSeq 16 false ⟨false, [2, 3], 0, (), 0⟩ 1).1.pending_queue = [] ∧
    σr.pcs 0 = PC.releasing := by
  have h := dispatch_drain_order mCount 16 false ⟨false, [2, 3], 0, (), 0⟩ 1
    σr ({ σr with pcs := Function.update σr.pcs 0 PC.idle, active := false })
    0 Option.none rfl
  exact ⟨h.1, h.2.1, h.2.2.2 rfl rfl rfl⟩

/-- Claim C5: while the guard is held elsewhere, a queue of capacity `cap`
accepts exactly `cap` consecutive events from empty (all are appended in
order, none dropped) and rejects the next one: the rejection leaves the
queue unchanged (never grows, never blocks — no hooks run), and bumps the
drop counter by exactly one. -/
theorem capacity_boundary {S Ctx E : Type} (m : FSMDef S Ctx E) (cap : Nat)
    (debug : Bool) (st : ProtoState S Ctx E) (es : List E) (e : E)
    (hact : st.dispatch_active = true) (hq : st.pending_queue = [])
    (hlen : es.length = cap) :
    (m.dispatchSeqAll cap debug st es).1.pending_queue = es ∧
    (m.dispatchSeqAll cap debug st es).1.dropped_events = st.dropped_events ∧
    (m.dispatchSeq cap debug (m.dispatchSeqAll cap debug st es).1 e).1.pending_queue
      = es ∧
    (m.dispatchSeq cap debug (m.dispatchSeqAll cap debug st es).1 e).1.dropped_events
      = st.dropped_events + 1 ∧
    (m.dispatchSeq cap debug (m.dispatchSeqAll cap debug st es).1 e).2.1 = [] := by
  have hall := dispatchSeqAll_busy_room m cap debug es st hact
    (by rw [hq]; simp [hlen])
  rw [hall]
  simp only [hq, List.nil_append]
  refine ⟨trivial, trivial, ?_⟩
  unfold FSMDef.dispatchSeq
  rw [if_neg (by simp [hact])]
  unfold dispatchBusy push_back
  rw [if_neg (by simp [hlen])]
  exact ⟨by trivial, by trivial, by trivial⟩

/-- Claim C5 witness: capacity 2, guard busy: the first two events are
accepted in order, the third is rejected with exactly one drop-counter
increment and an unchanged queue. -/
theorem capacity_boundary_witness :
    (mUnit.dispatchSeqAll 2 false ⟨true, [], 3, (), ()⟩ [(), ()]).1.pending_queue
      = [(), ()] ∧
    (mUnit.dispatchSeqAll 2 false ⟨true, [], 3, (), ()⟩ [(), ()]).1.dropped_events = 3 ∧
    (mUnit.dispatchSeq 2 false
      (mUnit.dispatchSeqAll 2 false ⟨true, [], 3, (), ()⟩ [(), ()]).1 ()).1.dropped_events
      = 4 := by
  have h := capacity_boundary mUnit 2 false ⟨true, [], 3, (), ()⟩ [(), ()] ()
    rfl rfl rfl
  exact ⟨h.1, h.2.1, h.2.2.2.1⟩

/-- Claim C7: `dispatch` never blocks: a caller that wins the guard does
exactly `1 + (pending queue length)` hook-runs (the immediate event plus
one per queued event) and, in any reachable system state, the pending
queue holds at most `cap` events, bounding that work by `1 + cap`; a
caller that loses the guard runs no hooks at all and returns immediately
after either appending its event or dropping it with one counter bump. -/
theorem dispatch_bounded {S Ctx E : Type} (m : FSMDef S Ctx E) (cap : Nat)
    (debug : Bool) (st : ProtoState S Ctx E) (e : E) {n : Nat}
    (σ : CSys n S Ctx E) (s0 : S) (c0 : Ctx) (hr : Reachable m cap s0 c0 σ) :
    (st.dispatch_active = false →
      (procEvents (m.dispatchSeq cap debug st e).2.1).length =
        1 + st.pending_queue.length) ∧
    (st.dispatch_active = true →
      (m.dispatchSeq cap debug st e).2.1 = [] ∧
      ((m.dispatchSeq cap debug st e).1.pending_queue = st.pending_queue ++ [e] ∧
        (m.dispatchSeq cap debug st e).1.dropped_events = st.dropped_events ∨
       (m.dispatchSeq cap debug st e).1.pending_queue = st.pending_queue ∧
        (m.dispatchSeq cap debug st e).1.dropped_events = st.dropped_events + 1)) ∧
    σ.queue.length ≤ cap := by
  refine ⟨?_, ?_, queueInv_reachable hr⟩
  · intro hfree
    unfold FSMDef.dispatchSeq
    rw [if_pos hfree]
    simp only
    rw [procEvents_append, procEvents_do_dispatch, drainLoop_procEvents]
    simp [Nat.add_comm]
  · intro hact
    unfold FSMDef.dispatchSeq
    rw [if_neg (by simp [hact])]
    unfold dispatchBusy push_back
    by_cases hroom : st.pending_queue.length < cap
    · rw [if_pos hroom]
      exact ⟨rfl, Or.inl ⟨rfl, rfl⟩⟩
    · rw [if_neg hroom]
      exact ⟨rfl, Or.inr ⟨rfl, rfl⟩⟩

/-- Claim C7 witness: a free-guard dispatch with two queued events does
exactly three hook-runs; a busy-guard dispatch runs none and enqueues; the
initial system's queue is within capacity. -/
theorem dispatch_bounded_witness :
    (procEvents (mUnit.dispatchSeq 16 false ⟨false, [(), ()], 0, (), ()⟩ ()).2.1).length
      = 3 ∧
    (mUnit.dispatchSeq 16 false ⟨true, [], 0, (), ()⟩ ()).2.1 = [] ∧
    σc0.queue.length ≤ 16 := by
  have h1 := dispatch_bounded mUnit 16 false ⟨false, [(), ()], 0, (), ()⟩ ()
    σc0 () () (Reachable.start σc0 rfl)
  have h2 := dispatch_bounded mUnit 16 false ⟨true, [], 0, (), ()⟩ ()
    σc0 () () (Reachable.start σc0 rfl)
  exact ⟨h1.1 rfl, (h2.2.1 rfl).1, h1.2.2⟩

/-- Claim C10: on queue overflow the drop counter is incremented in the
same branch that raises the debug panic, and the incremented counter is
the one carried in the resulting state, so it is already visible when the
panic propagates; a release build takes the identical branch minus the
panic. -/
theorem overflow_counted_before_panic {S Ctx E : Type} (m : FSMDef S Ctx E)
    (cap : Nat) (st : ProtoState S Ctx E) (e : E)
    (hact : st.dispatch_active = true) (hfull : ¬ st.pending_queue.length < cap) :
    (m.dispatchSeq cap true st e).1.dropped_events = st.dropped_events + 1 ∧
    (m.dispatchSeq cap true st e).2.2 = true ∧
    (m.dispatchSeq cap true st e).1.pending_queue = st.pending_queue ∧
    (m.dispatchSeq cap false st e).1.dropped_events = st.dropped_events + 1 ∧
    (m.dispatchSeq cap false st e).2.2 = false := by
  unfold FSMDef.dispatchSeq
  rw [if_neg (by simp [hact]), if_neg (by simp [hact])]
  unfold dispatchBusy push_back
  rw [if_neg hfull]
  exact ⟨rfl, rfl, rfl, rfl, rfl⟩

/-- Claim C10 witness: capacity 1, full queue: the debug dispatch reports
a panic with the counter already showing the drop (4 becomes 5), the
release dispatch increments identically without a panic. -/
theorem overflow_counted_before_panic_witness :
    (mUnit.dispatchSeq 1 true ⟨true, [()], 4, (), ()⟩ ()).1.dropped_events = 5 ∧
    (mUnit.dispatchSeq 1 true ⟨true, [()], 4, (), ()⟩ ()).2.2 = true ∧
    (mUnit.dispatchSeq 1 false ⟨true, [()], 4, (), ()⟩ ()).2.2 = false := by
  have h := overflow_counted_before_panic mUnit 1 ⟨true, [()], 4, (), ()⟩ ()
    rfl (by decide)
  exact ⟨h.1, h.2.1, h.2.2.2.2⟩

/-- Claim C1: in every reachable interleaving, at most one caller is at a
control point whose next step invokes a user hook (`process`/`entry`/
`exit`), so no two hook invocations execute concurrently; at most one
caller holds the guard (is between its winning compare-exchange and its
releasing store) at a time; and a caller that finds the guard busy takes
the deferred path: its step leaves the machine state, context and
hook-run counters untouched and parks the event for enqueueing. -/
theorem hook_mutual_exclusion {n : Nat} {S Ctx E : Type} (m : FSMDef S Ctx E)
    (cap : Nat) (s0 : S) (c0 : Ctx) (σ : CSys n S Ctx E)
    (hr : Reachable m cap s0 c0 σ) :
    (∀ t1 t2 : Fin n, invokesHook σ t1 = true → invokesHook σ t2 = true → t1 = t2) ∧
    (∀ t1 t2 : Fin n, (σ.pcs t1).isHolder = true → (σ.pcs t2).isHolder = true →
      t1 = t2) ∧
    (∀ (t : Fin n) (e : E) (σ1 : CSys n S Ctx E),
      σ.pcs t = PC.idle → σ.active = true → cstep m cap σ t (some e) = some σ1 →
      σ1.pcs t = PC.wantEnqueue e ∧ σ1.fsm = σ.fsm ∧ σ1.ctx = σ.ctx ∧
        σ1.immRun = σ.immRun ∧ σ1.deqRun = σ.deqRun) := by
  refine ⟨?_, (mutexInv_reachable hr).1, ?_⟩
  · intro t1 t2 h1 h2
    exact (mutexInv_reachable hr).1 t1 t2 (invokesHook_isHolder h1)
      (invokesHook_isHolder h2)
  · intro t e σ1 hpc hact hs
    rcases cstep_cases hs with
      ⟨e1, hpc1, hcall, hfl, rfl⟩ | ⟨e1, hpc1, hcall, hfl, rfl⟩ | ⟨e1, hpc1, hcall, rfl⟩ |
      ⟨e1, q, hpc1, hcall, hq, rfl⟩ | ⟨hpc1, hcall, hq, rfl⟩ | ⟨hpc1, hcall, rfl⟩ |
      ⟨e1, hpc1, hcall, hlen, rfl⟩ | ⟨e1, hpc1, hcall, hlen, rfl⟩
    · rw [hact] at hfl
      exact absurd hfl (by simp)
    · obtain rfl := Option.some.inj hcall
      exact ⟨by simp, rfl, rfl, rfl, rfl⟩
    · rw [hpc] at hpc1
      exact absurd hpc1 (by simp)
    · rw [hpc] at hpc1
      exact absurd hpc1 (by simp)
    · rw [hpc] at hpc1
      exact absurd hpc1 (by simp)
    · rw [hpc] at hpc1
      exact absurd hpc1 (by simp)
    · rw [hpc] at hpc1
      exact absurd hpc1 (by simp)
    · rw [hpc] at hpc1
      exact absurd hpc1 (by simp)

/-- Claim C1 witness: after caller 0 wins the compare-exchange, it is the
unique hook-invoking caller, and caller 1's dispatch from the busy guard
parks its event without touching the machine. -/
theorem hook_mutual_exclusion_witness :
    (0 : Fin 2) = 0 ∧
    Function.update σc1.pcs 1 (PC.wantEnqueue ()) 1 = PC.wantEnqueue () := by
  have h := hook_mutual_exclusion mUnit 16 () () σc1
    (Reachable.tail σc0 σc1 0 (some ()) (Reachable.start σc0 rfl) rfl)
  exact ⟨h.1 0 0 (by decide) (by decide), (h.2.2 1 () _ (by decide) rfl rfl).1⟩

/-- Claim C6 counterexample: a complete run (all callers back to idle)
whose accounting `submitted = run-immediately + dequeued + dropped` fails:
caller 0 drains to empty and breaks out of the loop; before its
`store(false)`, caller 1 loses the compare-exchange and enqueues; caller 0
then releases.  Both calls have returned, nothing was dropped, yet the
second event was neither run nor dropped — it is stranded in the queue. -/
theorem event_accounting_counterexample :
    Reachable mUnit 16 () () σc6 ∧ (∀ t : Fin 2, σc6.pcs t = PC.idle) ∧
    σc6.submitted ≠ σc6.immRun + σc6.deqRun + σc6.dropped :=
  ⟨reachable_σc6, by decide, by decide⟩

/-- Claim C6 (amended): in every reachable state in which no caller is
inside `dispatch`, the events submitted equal the events run immediately,
plus the events dequeued and run, plus the dropped count, plus the events
still pending in the queue (which can be nonzero: an event enqueued in the
window between the holder's empty-queue observation and its release is
neither run nor dropped until a later dispatch drains it). -/
theorem event_accounting {n : Nat} {S Ctx E : Type} (m : FSMDef S Ctx E)
    (cap : Nat) (s0 : S) (c0 : Ctx) (σ : CSys n S Ctx E)
    (hr : Reachable m cap s0 c0 σ) (hidle : ∀ t : Fin n, σ.pcs t = PC.idle) :
    σ.submitted = σ.immRun + σ.deqRun + σ.dropped + σ.queue.length := by
  have h := accInv_reachable hr
  unfold accInv at h
  rw [pendCount_zero_of_idle hidle] at h
  omega

/-- Claim C6 witness: the stranded-event run satisfies the amended
accounting: 2 submitted = 1 immediate + 0 dequeued + 0 dropped + 1 still
queued. -/
theorem event_accounting_witness :
    σc6.submitted = σc6.immRun + σc6.deqRun + σc6.dropped + σc6.queue.length :=
  event_accounting mUnit 16 () () σc6 reachable_σc6 (by decide)

end TypedFsm
